import Mathlib

/-!
Verification of the phase lookup table builder
(`src/rs/scramble/puzzles/square1_phase_lookup_table.rs`) and of the prune
table contract (`src/rs/_internal/search/prune_table_trait.rs`).

The puzzle representation (`KPattern`, `mask`, `wedge_parity`, move
application via `apply_transformation`) is an external collaborator of the
source file; it is embedded as an abstract environment `PuzzleEnv` of
functions over an abstract pattern type.  The builder itself is translated
statement by statement: the `VecDeque` fringe becomes a list used FIFO, the
`IndexedVec`s become lists indexed by position, the `HashMap` becomes an
association list (its keys are pairwise distinct by construction, so lookup
order is irrelevant), and the `while let` loop becomes a fuel-indexed
recursion (`none` marks fuel exhaustion, an artifact of the embedding, not
a behaviour of the code).  A `panic!`/`expect` in the source is an
`Except.error` here.
-/

namespace TwSearch

/-- `BasicParity` from `scramble::randomize` (external collaborator):
a two-valued parity. -/
inductive BasicParity where
  | Even : BasicParity
  | Odd : BasicParity
deriving DecidableEq, Repr

/-- The external puzzle collaborators consumed by
`build_phase_lookup_table`: the default pattern of the `KPuzzle`, the flat
move list of `SearchGenerators` (each move given by its action on
patterns), the `mask` operation (`none` models the `Err` that the source
turns into a panic), the `PatternValidityChecker::is_valid` capability and
`wedge_parity`. -/
structure PuzzleEnv (P : Type) where
  default_pattern : P
  moves : List (P → P)
  mask : P → P → Option P
  is_valid : P → Bool
  wedge_parity : P → BasicParity

/-- `LookupPattern`: a masked pattern together with the parity of the full
pattern it was derived from. -/
structure LookupPattern (P : Type) where
  masked_pattern : P
  parity : BasicParity
deriving DecidableEq, Repr

/-- The two fatal failures of the builder: `panic!("Mask application
failed")` in `LookupPattern::try_new`, and the
`expect("Inconsistent pattern enumeration")` in pass 2. -/
inductive BuildError where
  | maskFailed : BuildError
  | inconsistentEnumeration : BuildError
deriving DecidableEq, Repr

variable {P : Type} [DecidableEq P]

/-- `LookupPattern::try_new`: mask the full pattern (a mask failure is a
panic, `.error .maskFailed`), reject the result if the validity checker
refuses it (`.ok none`), otherwise pair it with the parity of the *full*
pattern. -/
def LookupPattern.try_new (env : PuzzleEnv P) (full_pattern phase_mask : P) :
    Except BuildError (Option (LookupPattern P)) :=
  match env.mask full_pattern phase_mask with
  | none => .error .maskFailed
  | some masked_pattern =>
    if env.is_valid masked_pattern then
      .ok (some ⟨masked_pattern, env.wedge_parity full_pattern⟩)
    else
      .ok none

/-- The key of a full pattern: `some k` exactly when `try_new` succeeds
with `some k`. -/
def keyOf (env : PuzzleEnv P) (phase_mask : P) (p : P) : Option (LookupPattern P) :=
  match LookupPattern.try_new env p phase_mask with
  | .ok (some k) => some k
  | _ => none

/-- `HashMap::get` on the association list that embeds
`lookup_pattern_to_index`. -/
def hashMapGet (m : List (LookupPattern P × Nat)) (k : LookupPattern P) : Option Nat :=
  match m with
  | [] => none
  | kv :: rest => if kv.1 = k then some kv.2 else hashMapGet rest k

/-- The mutable state of pass 1 of `build_phase_lookup_table`: the BFS
fringe and the four aligned tables grown by the loop. -/
structure BuilderState (P : Type) where
  fringe : List (P × Nat)
  index_to_lookup_pattern : List (LookupPattern P)
  lookup_pattern_to_index : List (LookupPattern P × Nat)
  exact_prune_table : List Nat
  index_to_representative_full_pattern : List P
deriving DecidableEq, Repr

/-- The state just before the `while let` loop: the fringe seeded with
`(default_pattern, 0)`, every table empty. -/
def initState (env : PuzzleEnv P) : BuilderState P :=
  { fringe := [(env.default_pattern, 0)]
    index_to_lookup_pattern := []
    lookup_pattern_to_index := []
    exact_prune_table := []
    index_to_representative_full_pattern := [] }

/-- Pass 1 of `build_phase_lookup_table`: the `while let Some((full_pattern,
depth)) = fringe.pop_front()` loop, one fuel unit per iteration.  `none` is
fuel exhaustion; `some (.error e)` a panic; `some (.ok st)` the state after
the fringe has emptied. -/
def pass1Go (env : PuzzleEnv P) (phase_mask : P) :
    Nat → BuilderState P → Option (Except BuildError (BuilderState P))
  | 0, st =>
    match st.fringe with
    | [] => some (.ok st)
    | _ :: _ => none
  | fuel + 1, st =>
    match st.fringe with
    | [] => some (.ok st)
    | (full_pattern, depth) :: rest =>
      match LookupPattern.try_new env full_pattern phase_mask with
      | .error e => some (.error e)
      | .ok none => pass1Go env phase_mask fuel { st with fringe := rest }
      | .ok (some lookup_pattern) =>
        if (hashMapGet st.lookup_pattern_to_index lookup_pattern).isSome then
          pass1Go env phase_mask fuel { st with fringe := rest }
        else
          pass1Go env phase_mask fuel
            { fringe := rest ++ env.moves.map (fun mv => (mv full_pattern, depth + 1))
              index_to_lookup_pattern := st.index_to_lookup_pattern ++ [lookup_pattern]
              lookup_pattern_to_index := st.lookup_pattern_to_index ++
                [(lookup_pattern, st.index_to_lookup_pattern.length)]
              exact_prune_table := st.exact_prune_table ++ [depth]
              index_to_representative_full_pattern :=
                st.index_to_representative_full_pattern ++ [full_pattern] }

/-- One entry of pass 2: apply a move to a representative, recompute the
lookup pattern, and resolve it through the reverse map; a valid key missing
from the map is the `expect("Inconsistent pattern enumeration")` panic. -/
def pass2Entry (env : PuzzleEnv P) (phase_mask : P)
    (rmap : List (LookupPattern P × Nat)) (representative : P) (mv : P → P) :
    Except BuildError (Option Nat) :=
  match LookupPattern.try_new env (mv representative) phase_mask with
  | .error e => .error e
  | .ok none => .ok none
  | .ok (some new_lookup_pattern) =>
    match hashMapGet rmap new_lookup_pattern with
    | some i => .ok (some i)
    | none => .error .inconsistentEnumeration

/-- One row of pass 2: the entries of a representative for every move of
the flat generator list, in generator order. -/
def pass2Row (env : PuzzleEnv P) (phase_mask : P)
    (rmap : List (LookupPattern P × Nat)) (representative : P) :
    List (P → P) → Except BuildError (List (Option Nat))
  | [] => .ok []
  | mv :: mvs =>
    match pass2Entry env phase_mask rmap representative mv with
    | .error e => .error e
    | .ok entry =>
      match pass2Row env phase_mask rmap representative mvs with
      | .error e => .error e
      | .ok row => .ok (entry :: row)

/-- Pass 2 of `build_phase_lookup_table`: one row per assigned index, built
from the index's representative full pattern. -/
def pass2 (env : PuzzleEnv P) (phase_mask : P)
    (rmap : List (LookupPattern P × Nat)) :
    List P → Except BuildError (List (List (Option Nat)))
  | [] => .ok []
  | representative :: reps =>
    match pass2Row env phase_mask rmap representative env.moves with
    | .error e => .error e
    | .ok row =>
      match pass2 env phase_mask rmap reps with
      | .error e => .error e
      | .ok rows => .ok (row :: rows)

/-- `PhaseLookupTable`: the three aligned structures returned by the
builder.  A `PhasePatternIndex` and a `FlatMoveIndex` are positions in the
respective lists. -/
structure PhaseLookupTable (P : Type) where
  index_to_lookup_pattern : List (LookupPattern P)
  lookup_pattern_to_index : List (LookupPattern P × Nat)
  move_application_table : List (List (Option Nat))
deriving DecidableEq, Repr

/-- `PhaseLookupTable::apply_move`: a pure double indexing into
`move_application_table`.  The outer `Option` models the typed arena
accessor `.at`, which faults on an out-of-range index. -/
def PhaseLookupTable.apply_move (t : PhaseLookupTable P)
    (phase_pattern_index flat_move_index : Nat) : Option (Option Nat) :=
  match t.move_application_table[phase_pattern_index]? with
  | none => none
  | some row =>
    match row[flat_move_index]? with
    | none => none
    | some entry => some entry

/-- `build_phase_lookup_table`: pass 1 from the seeded state, then pass 2
over the recorded representatives. -/
def build_phase_lookup_table (env : PuzzleEnv P) (phase_mask : P) (fuel : Nat) :
    Option (Except BuildError (PhaseLookupTable P)) :=
  match pass1Go env phase_mask fuel (initState env) with
  | none => none
  | some (.error e) => some (.error e)
  | some (.ok st) =>
    match pass2 env phase_mask st.lookup_pattern_to_index
        st.index_to_representative_full_pattern with
    | .error e => some (.error e)
    | .ok rows =>
      some (.ok
        { index_to_lookup_pattern := st.index_to_lookup_pattern
          lookup_pattern_to_index := st.lookup_pattern_to_index
          move_application_table := rows })

/-- An edge of the reduced (phase-key) graph: some full pattern carrying
the first key is taken by some generator move to a full pattern carrying
the second key. -/
def Edge (env : PuzzleEnv P) (phase_mask : P) (k k' : LookupPattern P) : Prop :=
  ∃ p mv, mv ∈ env.moves ∧ keyOf env phase_mask p = some k ∧
    keyOf env phase_mask (mv p) = some k'

/-- `Reaches env pm n k`: the reduced graph has a path of length `n` from
the default pattern's key to `k`. -/
def Reaches (env : PuzzleEnv P) (phase_mask : P) : Nat → LookupPattern P → Prop
  | 0, k => keyOf env phase_mask env.default_pattern = some k
  | n + 1, k' => ∃ k, Reaches env phase_mask n k ∧ Edge env phase_mask k k'

/-- Modelled from the spec: the key map respects moves — masked-equal,
parity-equal full patterns stay key-equal under every generator move, so
the reduced (phase-key) graph is well defined.  The spec presents masking
as a projection compatible with moves; the concrete `mask`/`wedge_parity`
implementations live outside the two source files. -/
def KeyCongruent (env : PuzzleEnv P) (phase_mask : P) : Prop :=
  ∀ p q : P, keyOf env phase_mask p ≠ none →
    keyOf env phase_mask p = keyOf env phase_mask q →
    ∀ mv ∈ env.moves, keyOf env phase_mask (mv p) = keyOf env phase_mask (mv q)

/-- Modelled from the spec: the `PruneTable` capability contract of
`prune_table_trait.rs`; the trait carries no implementation under the two
source files, so only its lookup capability is embedded.  `lookup` returns
a `Depth` (a whole number). -/
structure PruneTable (Pat : Type) where
  lookup : Pat → Nat

/-- `ReachesGoal env isGoal n p`: some sequence of `n` generator moves
takes `p` to a pattern satisfying the goal predicate. -/
def ReachesGoal (env : PuzzleEnv P) (isGoal : P → Bool) : Nat → P → Prop
  | 0, p => isGoal p = true
  | n + 1, p => ∃ mv ∈ env.moves, ReachesGoal env isGoal n (mv p)

/-- Modelled from the spec: admissibility of a prune table — its lookup
never exceeds the length of any move sequence reaching a goal. -/
def IsAdmissible (env : PuzzleEnv P) (isGoal : P → Bool) (pt : PruneTable P) : Prop :=
  ∀ p n, ReachesGoal env isGoal n p → pt.lookup p ≤ n

/-- The association list pairing each element of a key list with its
position, positions starting at `n`; `lookup_pattern_to_index` always has
this shape. -/
def enumKV (n : Nat) : List (LookupPattern P) → List (LookupPattern P × Nat)
  | [] => []
  | k :: ks => (k, n) :: enumKV (n + 1) ks

/-! ### Concrete instances used by the witnesses -/

/-- A three-state cyclic toy puzzle: patterns `Fin 3`, one generator move
`+1`, identity mask, always-true validity, constant parity. -/
def envT : PuzzleEnv (Fin 3) :=
  { default_pattern := 0
    moves := [fun p => p + 1]
    mask := fun p _ => some p
    is_valid := fun _ => true
    wedge_parity := fun _ => BasicParity.Even }

/-- The phase mask handed to the builder for `envT` (ignored by its
identity mask). -/
def pmT : Fin 3 := 0

/-- The state in which pass 1 on `envT` drains its fringe: three keys at
exact depths 0, 1, 2. -/
def stT : BuilderState (Fin 3) :=
  { fringe := []
    index_to_lookup_pattern := [⟨0, .Even⟩, ⟨1, .Even⟩, ⟨2, .Even⟩]
    lookup_pattern_to_index := [(⟨0, .Even⟩, 0), (⟨1, .Even⟩, 1), (⟨2, .Even⟩, 2)]
    exact_prune_table := [0, 1, 2]
    index_to_representative_full_pattern := [0, 1, 2] }

/-- The phase lookup table built from `envT`. -/
def tblT : PhaseLookupTable (Fin 3) :=
  { index_to_lookup_pattern := [⟨0, .Even⟩, ⟨1, .Even⟩, ⟨2, .Even⟩]
    lookup_pattern_to_index := [(⟨0, .Even⟩, 0), (⟨1, .Even⟩, 1), (⟨2, .Even⟩, 2)]
    move_application_table := [[some 1], [some 2], [some 0]] }

/-- A toy puzzle on `Fin 4` whose mask projects to the value modulo 2 and
whose parity genuinely depends on the unmasked pattern, so masked-equal
patterns can carry distinct parities. -/
def envParity : PuzzleEnv (Fin 4) :=
  { default_pattern := 0
    moves := [fun p => p + 1]
    mask := fun p _ => some ⟨p.val % 2, by omega⟩
    is_valid := fun _ => true
    wedge_parity := fun p => if p.val < 2 then BasicParity.Even else BasicParity.Odd }

/-- A toy puzzle whose validity checker rejects the default pattern. -/
def envInvalidSeed : PuzzleEnv (Fin 2) :=
  { default_pattern := 0
    moves := [fun p => p + 1]
    mask := fun p _ => some p
    is_valid := fun p => decide (p ≠ 0)
    wedge_parity := fun _ => BasicParity.Even }

/-- A toy puzzle whose mask operation always fails. -/
def envMaskFail : PuzzleEnv (Fin 2) :=
  { default_pattern := 0
    moves := []
    mask := fun _ _ => none
    is_valid := fun _ => true
    wedge_parity := fun _ => BasicParity.Even }

/-! ### List helper lemmas -/

lemma getElem?_append_lt {α : Type} (l : List α) (a : α) {i : Nat} (h : i < l.length) :
    (l ++ [a])[i]? = l[i]? := by
  rw [List.getElem?_append]
  simp [h]

lemma getElem?_append_len {α : Type} (l : List α) (a : α) :
    (l ++ [a])[l.length]? = some a := by
  rw [List.getElem?_append]
  simp

lemma getElem?_append_cases {α : Type} {l : List α} {a : α} {i : Nat} {x : α}
    (h : (l ++ [a])[i]? = some x) : l[i]? = some x ∨ (i = l.length ∧ x = a) := by
  rcases Nat.lt_or_ge i l.length with hi | hi
  · exact Or.inl (by rwa [getElem?_append_lt l a hi] at h)
  · right
    rw [List.getElem?_append, if_neg (Nat.not_lt.mpr hi)] at h
    have h0 : i - l.length = 0 := by
      by_contra hne
      rcases Nat.exists_eq_succ_of_ne_zero hne with ⟨j, hj⟩
      rw [hj] at h
      simp at h
    have hlen : i = l.length := Nat.le_antisymm (Nat.le_of_sub_eq_zero h0) hi
    rw [h0] at h
    simp at h
    exact ⟨hlen, h.symm⟩

lemma getElem?_some_lt {α : Type} {l : List α} {i : Nat} {x : α} (h : l[i]? = some x) :
    i < l.length :=
  (List.getElem?_eq_some.mp h).1

lemma exists_getElem?_of_lt {α : Type} {l : List α} {i : Nat} (h : i < l.length) :
    ∃ x, l[i]? = some x :=
  ⟨l[i], List.getElem?_eq_getElem h⟩

lemma pairwise_of_forall {α : Type} {R : α → α → Prop} (l : List α) (h : ∀ a b, R a b) :
    l.Pairwise R := by
  induction l with
  | nil => exact List.Pairwise.nil
  | cons x xs ih => exact List.Pairwise.cons (fun b _ => h x b) ih

/-! ### `enumKV` and `hashMapGet` lemmas -/

lemma enumKV_append (n : Nat) (l : List (LookupPattern P)) (k : LookupPattern P) :
    enumKV n (l ++ [k]) = enumKV n l ++ [(k, n + l.length)] := by
  induction l generalizing n with
  | nil => simp [enumKV]
  | cons x xs ih =>
    show (x, n) :: enumKV (n + 1) (xs ++ [k]) =
      ((x, n) :: enumKV (n + 1) xs) ++ [(k, n + (xs.length + 1))]
    rw [ih (n + 1), List.cons_append]
    have hn : n + 1 + xs.length = n + (xs.length + 1) := by omega
    rw [hn]

lemma hashMapGet_enumKV_some {l : List (LookupPattern P)} {k : LookupPattern P} {n j : Nat}
    (h : hashMapGet (enumKV n l) k = some j) : ∃ i, j = n + i ∧ l[i]? = some k := by
  induction l generalizing n with
  | nil => simp [enumKV, hashMapGet] at h
  | cons x xs ih =>
    rw [enumKV, hashMapGet] at h
    by_cases hx : x = k
    · rw [if_pos hx] at h
      simp at h
      exact ⟨0, by omega, by simp [hx]⟩
    · rw [if_neg hx] at h
      rcases ih h with ⟨i, hji, hget⟩
      exact ⟨i + 1, by omega, by simpa using hget⟩

lemma hashMapGet_enumKV_of_getElem {l : List (LookupPattern P)} (hnd : l.Nodup)
    {i : Nat} {k : LookupPattern P} (h : l[i]? = some k) (n : Nat) :
    hashMapGet (enumKV n l) k = some (n + i) := by
  induction l generalizing n i with
  | nil => simp at h
  | cons x xs ih =>
    rw [enumKV, hashMapGet]
    rcases i with _ | i
    · simp at h
      subst h
      rw [if_pos rfl]
      simp
    · have hmem : k ∈ xs := List.getElem?_mem (by simpa using h)
      have hx : x ≠ k := by
        intro he
        exact (List.nodup_cons.mp hnd).1 (he ▸ hmem)
      rw [if_neg hx]
      rw [ih (List.nodup_cons.mp hnd).2 (by simpa using h) (n + 1)]
      congr 1
      omega

lemma hashMapGet_enumKV_none {l : List (LookupPattern P)} {k : LookupPattern P} {n : Nat}
    (h : hashMapGet (enumKV n l) k = none) : k ∉ l := by
  induction l generalizing n with
  | nil => simp
  | cons x xs ih =>
    rw [enumKV, hashMapGet] at h
    by_cases hx : x = k
    · rw [if_pos hx] at h
      exact absurd h (by simp)
    · rw [if_neg hx] at h
      intro hmem
      rcases List.mem_cons.mp hmem with he | hm
      · exact hx he.symm
      · exact ih h hm

/-! ### `keyOf` lemmas -/

lemma keyOf_eq_some {env : PuzzleEnv P} {pm p : P} {k : LookupPattern P} :
    keyOf env pm p = some k ↔ LookupPattern.try_new env p pm = .ok (some k) := by
  unfold keyOf
  cases h : LookupPattern.try_new env p pm with
  | error e => simp
  | ok o =>
    cases o with
    | none => simp
    | some k2 => simp

lemma keyOf_eq_none_of_ok_none {env : PuzzleEnv P} {pm p : P}
    (h : LookupPattern.try_new env p pm = .ok none) : keyOf env pm p = none := by
  unfold keyOf
  rw [h]

/-! ### The loop invariant of pass 1 -/

/-- Everything pass 1 maintains from one iteration of the `while let` loop
to the next: the four tables stay aligned, the reverse map is exactly the
enumeration of the key table, keys are never assigned twice, popped depths
(hence assigned depths) are non-decreasing and the fringe spans at most two
consecutive BFS levels, every key sighted in the fringe or assigned is
reachable within its recorded depth, the seed is accounted for, and every
move out of an assigned representative lands on a key that is either
already assigned or still waiting in the fringe one level deeper. -/
structure Inv (env : PuzzleEnv P) (pm : P) (st : BuilderState P) : Prop where
  hlen_d : st.exact_prune_table.length = st.index_to_lookup_pattern.length
  hlen_r : st.index_to_representative_full_pattern.length = st.index_to_lookup_pattern.length
  hR : st.lookup_pattern_to_index = enumKV 0 st.index_to_lookup_pattern
  hnodup : st.index_to_lookup_pattern.Nodup
  hkey : ∀ (i : Nat) (k : LookupPattern P) (r : P), st.index_to_lookup_pattern[i]? = some k →
    st.index_to_representative_full_pattern[i]? = some r → keyOf env pm r = some k
  hAmono : st.exact_prune_table.Pairwise (· ≤ ·)
  hFmono : st.fringe.Pairwise (fun a b => a.2 ≤ b.2)
  hFspan : ∀ a ∈ st.fringe, ∀ b ∈ st.fringe, a.2 ≤ b.2 + 1
  hAF : ∀ d ∈ st.exact_prune_table, ∀ b ∈ st.fringe, d ≤ b.2
  hFsound : ∀ a ∈ st.fringe, ∀ k : LookupPattern P,
    keyOf env pm a.1 = some k → ∃ n ≤ a.2, Reaches env pm n k
  hAsound : ∀ (i : Nat) (k : LookupPattern P) (d : Nat),
    st.index_to_lookup_pattern[i]? = some k →
    st.exact_prune_table[i]? = some d → ∃ n ≤ d, Reaches env pm n k
  hSeed : ∀ k0 : LookupPattern P, keyOf env pm env.default_pattern = some k0 →
    (∃ i : Nat, st.index_to_lookup_pattern[i]? = some k0 ∧
      st.exact_prune_table[i]? = some 0) ∨
    (env.default_pattern, 0) ∈ st.fringe
  hEdge : ∀ (i : Nat) (r : P) (d : Nat),
    st.index_to_representative_full_pattern[i]? = some r →
    st.exact_prune_table[i]? = some d → ∀ mv ∈ env.moves, ∀ k' : LookupPattern P,
    keyOf env pm (mv r) = some k' →
    (∃ (j : Nat) (d' : Nat), st.index_to_lookup_pattern[j]? = some k' ∧
      st.exact_prune_table[j]? = some d' ∧ d' ≤ d + 1) ∨
    (∃ b ∈ st.fringe, keyOf env pm b.1 = some k' ∧ b.2 ≤ d + 1)

lemma Inv.depth_exists {env : PuzzleEnv P} {pm : P} {st : BuilderState P}
    (hInv : Inv env pm st) {j : Nat} {k : LookupPattern P}
    (h : st.index_to_lookup_pattern[j]? = some k) :
    ∃ d, st.exact_prune_table[j]? = some d :=
  exists_getElem?_of_lt (hInv.hlen_d ▸ getElem?_some_lt h)

lemma Inv.rep_exists {env : PuzzleEnv P} {pm : P} {st : BuilderState P}
    (hInv : Inv env pm st) {j : Nat} {k : LookupPattern P}
    (h : st.index_to_lookup_pattern[j]? = some k) :
    ∃ r, st.index_to_representative_full_pattern[j]? = some r :=
  exists_getElem?_of_lt (hInv.hlen_r ▸ getElem?_some_lt h)

lemma Inv.of_hashMapGet {env : PuzzleEnv P} {pm : P} {st : BuilderState P}
    (hInv : Inv env pm st) {j : Nat} {k : LookupPattern P}
    (h : hashMapGet st.lookup_pattern_to_index k = some j) :
    st.index_to_lookup_pattern[j]? = some k := by
  rw [hInv.hR] at h
  rcases hashMapGet_enumKV_some h with ⟨i, hji, hget⟩
  have : j = i := by omega
  rwa [this]

lemma Inv.to_hashMapGet {env : PuzzleEnv P} {pm : P} {st : BuilderState P}
    (hInv : Inv env pm st) {i : Nat} {k : LookupPattern P}
    (h : st.index_to_lookup_pattern[i]? = some k) :
    hashMapGet st.lookup_pattern_to_index k = some i := by
  rw [hInv.hR]
  simpa using hashMapGet_enumKV_of_getElem hInv.hnodup h 0

lemma Inv.init (env : PuzzleEnv P) (pm : P) : Inv env pm (initState env) := by
  constructor <;> simp [initState, enumKV]
  all_goals intro k hk
  all_goals exact hk

/-- Discarding the popped pattern (invalid key, or key already assigned at
depth at most the popped depth) preserves the invariant. -/
lemma Inv_step_skip {env : PuzzleEnv P} {pm : P} {st : BuilderState P}
    {p : P} {d : Nat} {rest : List (P × Nat)}
    (hInv : Inv env pm st) (hf : st.fringe = (p, d) :: rest)
    (hcov : ∀ k : LookupPattern P, keyOf env pm p = some k →
      ∃ (j : Nat) (d' : Nat), st.index_to_lookup_pattern[j]? = some k ∧
        st.exact_prune_table[j]? = some d' ∧ d' ≤ d) :
    Inv env pm { st with fringe := rest } := by
  have hmem : ∀ a ∈ rest, a ∈ st.fringe := by
    intro a ha
    rw [hf]
    exact List.mem_cons_of_mem _ ha
  refine ⟨hInv.hlen_d, hInv.hlen_r, hInv.hR, hInv.hnodup, hInv.hkey, hInv.hAmono,
    ?_, ?_, ?_, ?_, hInv.hAsound, ?_, ?_⟩
  · exact (List.pairwise_cons.mp (hf ▸ hInv.hFmono)).2
  · exact fun a ha b hb => hInv.hFspan a (hmem a ha) b (hmem b hb)
  · exact fun x hx b hb => hInv.hAF x hx b (hmem b hb)
  · exact fun a ha k hk => hInv.hFsound a (hmem a ha) k hk
  · intro k0 hk0
    rcases hInv.hSeed k0 hk0 with hA | hF
    · exact Or.inl hA
    · rw [hf] at hF
      rcases List.mem_cons.mp hF with he | hm
      · rcases Prod.mk.injEq .. ▸ he with ⟨hp, hd⟩
        have hkp : keyOf env pm p = some k0 := by rw [← hp]; exact hk0
        rcases hcov k0 hkp with ⟨j, d', hj, hjd, hle⟩
        have hd0 : d' = 0 := by omega
        exact Or.inl ⟨j, hj, hd0 ▸ hjd⟩
      · exact Or.inr hm
  · intro i r dd hr hd mv hmv k' hk'
    rcases hInv.hEdge i r dd hr hd mv hmv k' hk' with hA | ⟨b, hb, hbk, hbd⟩
    · exact Or.inl hA
    · rw [hf] at hb
      rcases List.mem_cons.mp hb with he | hm
      · have hbp : keyOf env pm p = some k' := by rw [he] at hbk; exact hbk
        rcases hcov k' hbp with ⟨j, d', hj, hjd, hle⟩
        have hb2 : b.2 = d := by rw [he]
        refine Or.inl ⟨j, d', hj, hjd, ?_⟩
        omega
      · exact Or.inr ⟨b, hm, hbk, hbd⟩

/-- Assigning the next sequential index to a newly discovered key — pushing
the key, the popped depth and the representative onto the aligned tables,
inserting the key into the reverse map, and expanding the fringe with every
generator successor at depth `d + 1` — preserves the invariant. -/
lemma Inv_step_assign {env : PuzzleEnv P} {pm : P} {st : BuilderState P}
    {p : P} {d : Nat} {rest : List (P × Nat)} {k : LookupPattern P}
    (hInv : Inv env pm st) (hf : st.fringe = (p, d) :: rest)
    (hk : keyOf env pm p = some k)
    (hnew : hashMapGet st.lookup_pattern_to_index k = none) :
    Inv env pm
      { fringe := rest ++ env.moves.map (fun mv => (mv p, d + 1))
        index_to_lookup_pattern := st.index_to_lookup_pattern ++ [k]
        lookup_pattern_to_index := st.lookup_pattern_to_index ++
          [(k, st.index_to_lookup_pattern.length)]
        exact_prune_table := st.exact_prune_table ++ [d]
        index_to_representative_full_pattern :=
          st.index_to_representative_full_pattern ++ [p] } := by
  have hkA : k ∉ st.index_to_lookup_pattern :=
    hashMapGet_enumKV_none (by rwa [hInv.hR] at hnew)
  have hmemf : (p, d) ∈ st.fringe := by
    rw [hf]
    exact List.mem_cons_self _ _
  have hmemr : ∀ a ∈ rest, a ∈ st.fringe := by
    intro a ha
    rw [hf]
    exact List.mem_cons_of_mem _ ha
  have hLd : st.exact_prune_table.length = st.index_to_lookup_pattern.length := hInv.hlen_d
  have hLr : st.index_to_representative_full_pattern.length =
      st.index_to_lookup_pattern.length := hInv.hlen_r
  have hrestd : ∀ b ∈ rest, d ≤ b.2 :=
    fun b hb => (List.pairwise_cons.mp (hf ▸ hInv.hFmono)).1 b hb
  have hpushd : ∀ b ∈ env.moves.map (fun mv => (mv p, d + 1)), b.2 = d + 1 := by
    intro b hb
    rcases List.mem_map.mp hb with ⟨mv, _, hmveq⟩
    rw [← hmveq]
  refine ⟨?_, ?_, ?_, ?_, ?_, ?_, ?_, ?_, ?_, ?_, ?_, ?_, ?_⟩
  · simp [hLd]
  · simp [hLr]
  · show st.lookup_pattern_to_index ++ [(k, st.index_to_lookup_pattern.length)] =
      enumKV 0 (st.index_to_lookup_pattern ++ [k])
    rw [enumKV_append, ← hInv.hR]
    simp
  · show (st.index_to_lookup_pattern ++ [k]).Nodup
    rw [List.nodup_append]
    exact ⟨hInv.hnodup, List.nodup_singleton k,
      fun a ha hak => hkA (List.mem_singleton.mp hak ▸ ha)⟩
  · intro i k2 r hk2 hr
    rcases getElem?_append_cases hk2 with hk2o | ⟨hi, hke⟩
    · rcases getElem?_append_cases hr with hro | ⟨hi2, hre⟩
      · exact hInv.hkey i k2 r hk2o hro
      · have := getElem?_some_lt hk2o
        omega
    · rcases getElem?_append_cases hr with hro | ⟨hi2, hre⟩
      · have := getElem?_some_lt hro
        omega
      · rw [hke, hre]
        exact hk
  · show (st.exact_prune_table ++ [d]).Pairwise (· ≤ ·)
    rw [List.pairwise_append]
    refine ⟨hInv.hAmono, List.pairwise_singleton _ _, ?_⟩
    intro a ha b hb
    rw [List.mem_singleton.mp hb]
    exact hInv.hAF a ha (p, d) hmemf
  · show (rest ++ env.moves.map (fun mv => (mv p, d + 1))).Pairwise (fun a b => a.2 ≤ b.2)
    rw [List.pairwise_append]
    refine ⟨(List.pairwise_cons.mp (hf ▸ hInv.hFmono)).2, ?_, ?_⟩
    · rw [List.pairwise_map]
      exact pairwise_of_forall _ (fun a b => Nat.le_refl _)
    · intro a ha b hb
      rw [hpushd b hb]
      exact hInv.hFspan a (hmemr a ha) (p, d) hmemf
  · intro a ha b hb
    rcases List.mem_append.mp ha with har | hap
    · rcases List.mem_append.mp hb with hbr | hbp
      · exact hInv.hFspan a (hmemr a har) b (hmemr b hbr)
      · have := hInv.hFspan a (hmemr a har) (p, d) hmemf
        rw [hpushd b hbp]
        omega
    · rcases List.mem_append.mp hb with hbr | hbp
      · have := hrestd b hbr
        rw [hpushd a hap]
        omega
      · rw [hpushd a hap, hpushd b hbp]
        omega
  · intro x hx b hb
    rcases List.mem_append.mp hx with hxo | hxd
    · rcases List.mem_append.mp hb with hbr | hbp
      · exact hInv.hAF x hxo b (hmemr b hbr)
      · have := hInv.hAF x hxo (p, d) hmemf
        rw [hpushd b hbp]
        omega
    · rw [List.mem_singleton.mp hxd]
      rcases List.mem_append.mp hb with hbr | hbp
      · exact hrestd b hbr
      · rw [hpushd b hbp]
        omega
  · intro a ha k2 hk2
    rcases List.mem_append.mp ha with har | hap
    · exact hInv.hFsound a (hmemr a har) k2 hk2
    · rcases List.mem_map.mp hap with ⟨mv, hmv, hmveq⟩
      rcases hInv.hFsound (p, d) hmemf k hk with ⟨n, hn, hRn⟩
      have ha1 : a.1 = mv p := by rw [← hmveq]
      have ha2 : a.2 = d + 1 := by rw [← hmveq]
      rw [ha1] at hk2
      refine ⟨n + 1, by omega, ?_⟩
      exact ⟨k, hRn, ⟨p, mv, hmv, hk, hk2⟩⟩
  · intro i k2 dd hk2 hdd
    rcases getElem?_append_cases hk2 with hk2o | ⟨hi, hke⟩
    · rcases getElem?_append_cases hdd with hddo | ⟨hi2, hde⟩
      · exact hInv.hAsound i k2 dd hk2o hddo
      · have := getElem?_some_lt hk2o
        omega
    · rcases getElem?_append_cases hdd with hddo | ⟨hi2, hde⟩
      · have := getElem?_some_lt hddo
        omega
      · rw [hke, hde]
        exact hInv.hFsound (p, d) hmemf k hk
  · intro k0 hk0
    rcases hInv.hSeed k0 hk0 with ⟨i, hA, hD⟩ | hF
    · refine Or.inl ⟨i, ?_, ?_⟩
      · rw [getElem?_append_lt _ _ (getElem?_some_lt hA)]
        exact hA
      · rw [getElem?_append_lt _ _ (getElem?_some_lt hD)]
        exact hD
    · rw [hf] at hF
      rcases List.mem_cons.mp hF with he | hm
      · rcases Prod.mk.injEq .. ▸ he with ⟨hp, hd0⟩
        have hk0k : k0 = k := by
          rw [hp] at hk0
          exact Option.some.injEq .. ▸ (hk0.symm.trans hk)
        refine Or.inl ⟨st.index_to_lookup_pattern.length, ?_, ?_⟩
        · rw [hk0k]
          exact getElem?_append_len _ _
        · have : (st.exact_prune_table ++ [d])[st.exact_prune_table.length]? = some d :=
            getElem?_append_len _ _
          rw [hLd] at this
          rw [this, ← hd0]
      · exact Or.inr (List.mem_append_left _ hm)
  · intro i r dd hr hdd mv hmv k' hk'
    rcases getElem?_append_cases hr with hro | ⟨hi, hre⟩
    · rcases getElem?_append_cases hdd with hddo | ⟨hi2, hde⟩
      · rcases hInv.hEdge i r dd hro hddo mv hmv k' hk' with
          ⟨j, d', hj, hjd, hle⟩ | ⟨b, hb, hbk, hbd⟩
        · refine Or.inl ⟨j, d', ?_, ?_, hle⟩
          · rw [getElem?_append_lt _ _ (getElem?_some_lt hj)]
            exact hj
          · rw [getElem?_append_lt _ _ (getElem?_some_lt hjd)]
            exact hjd
        · rw [hf] at hb
          rcases List.mem_cons.mp hb with he | hm
          · have hbp : keyOf env pm p = some k' := by
              rw [he] at hbk
              exact hbk
            have hkk : k' = k := Option.some.injEq .. ▸ (hbp.symm.trans hk)
            have hb2 : b.2 = d := by rw [he]
            refine Or.inl ⟨st.index_to_lookup_pattern.length, d, ?_, ?_, by omega⟩
            · rw [hkk]
              exact getElem?_append_len _ _
            · have : (st.exact_prune_table ++ [d])[st.exact_prune_table.length]? = some d :=
                getElem?_append_len _ _
              rwa [hLd] at this
          · exact Or.inr ⟨b, List.mem_append_left _ hm, hbk, hbd⟩
      · have := getElem?_some_lt hro
        omega
    · rcases getElem?_append_cases hdd with hddo | ⟨hi2, hde⟩
      · have := getElem?_some_lt hddo
        omega
      · refine Or.inr ⟨(mv r, d + 1), ?_, ?_, ?_⟩
        · refine List.mem_append_right _ ?_
          rw [hre]
          exact List.mem_map.mpr ⟨mv, hmv, rfl⟩
        · exact hk'
        · rw [hde]

/-- Pass 1 returns `.ok` only with the fringe fully drained and the loop
invariant intact. -/
lemma pass1Go_inv {env : PuzzleEnv P} {pm : P} :
    ∀ (fuel : Nat) (st st' : BuilderState P), Inv env pm st →
      pass1Go env pm fuel st = some (.ok st') → Inv env pm st' ∧ st'.fringe = [] := by
  intro fuel
  induction fuel with
  | zero =>
    intro st st' hInv hrun
    cases hfr : st.fringe with
    | nil =>
      simp only [pass1Go, hfr] at hrun
      simp at hrun
      rw [← hrun]
      exact ⟨hInv, hfr⟩
    | cons hd rest =>
      simp only [pass1Go, hfr] at hrun
      exact Option.noConfusion hrun
  | succ fuel ih =>
    intro st st' hInv hrun
    cases hfr : st.fringe with
    | nil =>
      simp only [pass1Go, hfr] at hrun
      simp at hrun
      rw [← hrun]
      exact ⟨hInv, hfr⟩
    | cons hd rest =>
      obtain ⟨pp, dd⟩ := hd
      simp only [pass1Go, hfr] at hrun
      cases htn : LookupPattern.try_new env pp pm with
      | error e =>
        rw [htn] at hrun
        simp at hrun
      | ok o =>
        cases o with
        | none =>
          rw [htn] at hrun
          refine ih _ _ (Inv_step_skip hInv hfr ?_) hrun
          intro k2 hk2
          rw [keyOf_eq_none_of_ok_none htn] at hk2
          exact absurd hk2 (by simp)
        | some k =>
          have hkey : keyOf env pm pp = some k := keyOf_eq_some.mpr htn
          rw [htn] at hrun
          have hrun2 : (if (hashMapGet st.lookup_pattern_to_index k).isSome = true then
              pass1Go env pm fuel { st with fringe := rest }
            else
              pass1Go env pm fuel
                { fringe := rest ++ env.moves.map (fun mv => (mv pp, dd + 1))
                  index_to_lookup_pattern := st.index_to_lookup_pattern ++ [k]
                  lookup_pattern_to_index := st.lookup_pattern_to_index ++
                    [(k, st.index_to_lookup_pattern.length)]
                  exact_prune_table := st.exact_prune_table ++ [dd]
                  index_to_representative_full_pattern :=
                    st.index_to_representative_full_pattern ++ [pp] }) =
              some (.ok st') := hrun
          by_cases hdup : (hashMapGet st.lookup_pattern_to_index k).isSome
          · rw [if_pos hdup] at hrun2
            refine ih _ _ (Inv_step_skip hInv hfr ?_) hrun2
            intro k2 hk2
            have hk2k : k2 = k := by
              rw [hkey] at hk2
              exact (Option.some_inj.mp hk2).symm
            rcases Option.isSome_iff_exists.mp hdup with ⟨j, hj⟩
            have hjA := hInv.of_hashMapGet hj
            rcases hInv.depth_exists hjA with ⟨d', hd'⟩
            have hd'le : d' ≤ dd :=
              hInv.hAF d' (List.getElem?_mem hd') (pp, dd)
                (by rw [hfr]; exact List.mem_cons_self _ _)
            exact ⟨j, d', hk2k ▸ hjA, hd', hd'le⟩
          · rw [if_neg hdup] at hrun2
            have hnone : hashMapGet st.lookup_pattern_to_index k = none :=
              Option.not_isSome_iff_eq_none.mp hdup
            exact ih _ _ (Inv_step_assign hInv hfr hkey hnone) hrun2

/-! ### Consequences of the invariant at the final (fringe-empty) state -/

/-- Completeness with a depth bound: once the fringe has drained, every key
reachable in `n` reduced-graph steps is assigned, at a recorded depth of at
most `n`.  Uses the key congruence to transfer an edge witnessed by an
arbitrary pattern to the stored representative. -/
lemma reaches_assigned {env : PuzzleEnv P} {pm : P} {st : BuilderState P}
    (hCong : KeyCongruent env pm) (hInv : Inv env pm st) (hF : st.fringe = []) :
    ∀ (n : Nat) (k : LookupPattern P), Reaches env pm n k →
      ∃ (i : Nat) (d : Nat), st.index_to_lookup_pattern[i]? = some k ∧
        st.exact_prune_table[i]? = some d ∧ d ≤ n := by
  intro n
  induction n with
  | zero =>
    intro k hk
    rcases hInv.hSeed k hk with ⟨i, hA, hD⟩ | hf
    · exact ⟨i, 0, hA, hD, Nat.le_refl 0⟩
    · rw [hF] at hf
      exact absurd hf (List.not_mem_nil _)
  | succ n ih =>
    intro k hk
    simp only [Reaches] at hk
    rcases hk with ⟨k1, hR1, q, mv, hmv, hq, hq'⟩
    rcases ih k1 hR1 with ⟨i, d1, hA1, hD1, hle1⟩
    rcases hInv.rep_exists hA1 with ⟨r, hr⟩
    have hkr : keyOf env pm r = some k1 := hInv.hkey i k1 r hA1 hr
    have hmvr : keyOf env pm (mv r) = some k :=
      (hCong r q (by rw [hkr]; simp) (by rw [hkr, hq]) mv hmv).trans hq'
    rcases hInv.hEdge i r d1 hr hD1 mv hmv k hmvr with
      ⟨j, d', hj, hjd, hled⟩ | ⟨b, hb, _, _⟩
    · exact ⟨j, d', hj, hjd, by omega⟩
    · rw [hF] at hb
      exact absurd hb (List.not_mem_nil _)

/-- Exactness at the final state: each assigned index's recorded depth is
realised by a reduced-graph path and no shorter path exists. -/
lemma assigned_depth_exact {env : PuzzleEnv P} {pm : P} {st : BuilderState P}
    (hCong : KeyCongruent env pm) (hInv : Inv env pm st) (hF : st.fringe = [])
    {i d : Nat} {k : LookupPattern P}
    (hA : st.index_to_lookup_pattern[i]? = some k)
    (hD : st.exact_prune_table[i]? = some d) :
    Reaches env pm d k ∧ ∀ n, Reaches env pm n k → d ≤ n := by
  have hlower : ∀ n, Reaches env pm n k → d ≤ n := by
    intro n hn
    rcases reaches_assigned hCong hInv hF n k hn with ⟨i2, d2, hA2, hD2, hle2⟩
    have hii : i2 = i :=
      List.getElem?_inj (getElem?_some_lt hA2) hInv.hnodup (by rw [hA2, hA])
    rw [hii, hD] at hD2
    have hdd : d2 = d := (Option.some_inj.mp hD2).symm
    omega
  rcases hInv.hAsound i k d hA hD with ⟨n, hnle, hRn⟩
  have hge : d ≤ n := hlower n hRn
  have hnd : n = d := by omega
  exact ⟨hnd ▸ hRn, hlower⟩

/-! ### Inversion lemmas for pass 2 -/

lemma try_new_error {env : PuzzleEnv P} {pm p : P} {e : BuildError}
    (h : LookupPattern.try_new env p pm = .error e) : e = .maskFailed := by
  unfold LookupPattern.try_new at h
  split at h
  · exact (Except.error.inj h).symm
  · split at h
    · exact Except.noConfusion h
    · exact Except.noConfusion h

lemma pass2Entry_ok {env : PuzzleEnv P} {pm : P}
    {rmap : List (LookupPattern P × Nat)} {rep : P} {mv : P → P} {entry : Option Nat}
    (h : pass2Entry env pm rmap rep mv = .ok entry) :
    (entry = none ∧ keyOf env pm (mv rep) = none) ∨
    (∃ (k : LookupPattern P) (j : Nat), entry = some j ∧
      keyOf env pm (mv rep) = some k ∧ hashMapGet rmap k = some j) := by
  unfold pass2Entry at h
  split at h
  · exact Except.noConfusion h
  · rename_i htn
    exact Or.inl ⟨(Except.ok.inj h).symm, keyOf_eq_none_of_ok_none htn⟩
  · rename_i k htn
    split at h
    · rename_i j hj
      exact Or.inr ⟨k, j, (Except.ok.inj h).symm, keyOf_eq_some.mpr htn, hj⟩
    · exact Except.noConfusion h

lemma pass2Entry_inconsistent {env : PuzzleEnv P} {pm : P}
    {rmap : List (LookupPattern P × Nat)} {rep : P} {mv : P → P}
    (h : pass2Entry env pm rmap rep mv = .error .inconsistentEnumeration) :
    ∃ k : LookupPattern P, keyOf env pm (mv rep) = some k ∧ hashMapGet rmap k = none := by
  unfold pass2Entry at h
  split at h
  · rename_i e htn
    have he : e = BuildError.maskFailed := try_new_error htn
    have : e = BuildError.inconsistentEnumeration := Except.error.inj h
    rw [he] at this
    exact BuildError.noConfusion this
  · exact Except.noConfusion h
  · rename_i k htn
    split at h
    · exact Except.noConfusion h
    · rename_i hnone
      exact ⟨k, keyOf_eq_some.mpr htn, hnone⟩

lemma pass2Row_getElem {env : PuzzleEnv P} {pm : P}
    {rmap : List (LookupPattern P × Nat)} {rep : P} :
    ∀ {mvs : List (P → P)} {row : List (Option Nat)},
      pass2Row env pm rmap rep mvs = .ok row →
      ∀ (m : Nat) (mv : P → P), mvs[m]? = some mv →
        ∃ entry, row[m]? = some entry ∧ pass2Entry env pm rmap rep mv = .ok entry := by
  intro mvs
  induction mvs with
  | nil =>
    intro row h m mv hget
    simp at hget
  | cons mv0 mvs ih =>
    intro row h m mv hget
    simp only [pass2Row] at h
    split at h
    · exact Except.noConfusion h
    · rename_i entry hent
      split at h
      · exact Except.noConfusion h
      · rename_i row2 hrow2
        have hrow : entry :: row2 = row := Except.ok.inj h
        subst hrow
        rcases m with _ | m
        · simp at hget
          subst hget
          exact ⟨entry, by simp, hent⟩
        · rcases ih hrow2 m mv (by simpa using hget) with ⟨e2, he2, hent2⟩
          exact ⟨e2, by simpa using he2, hent2⟩

lemma pass2Row_error {env : PuzzleEnv P} {pm : P}
    {rmap : List (LookupPattern P × Nat)} {rep : P} :
    ∀ {mvs : List (P → P)} {e : BuildError},
      pass2Row env pm rmap rep mvs = .error e →
      ∃ mv ∈ mvs, pass2Entry env pm rmap rep mv = .error e := by
  intro mvs
  induction mvs with
  | nil =>
    intro e h
    exact Except.noConfusion h
  | cons mv0 mvs ih =>
    intro e h
    simp only [pass2Row] at h
    split at h
    · rename_i he
      have : e = _ := (Except.error.inj h).symm
      exact ⟨mv0, List.mem_cons_self _ _, by rw [he, this]⟩
    · rename_i entry hent
      split at h
      · rename_i he2
        rcases ih (by rw [he2, Except.error.inj h]) with ⟨mv, hmv, hmve⟩
        exact ⟨mv, List.mem_cons_of_mem _ hmv, hmve⟩
      · exact Except.noConfusion h

lemma pass2_getElem {env : PuzzleEnv P} {pm : P} {rmap : List (LookupPattern P × Nat)} :
    ∀ {reps : List P} {rows : List (List (Option Nat))},
      pass2 env pm rmap reps = .ok rows →
      ∀ (i : Nat) (rep : P), reps[i]? = some rep →
        ∃ row, rows[i]? = some row ∧ pass2Row env pm rmap rep env.moves = .ok row := by
  intro reps
  induction reps with
  | nil =>
    intro rows h i rep hget
    simp at hget
  | cons r rs ih =>
    intro rows h i rep hget
    simp only [pass2] at h
    split at h
    · exact Except.noConfusion h
    · rename_i row hrow
      split at h
      · exact Except.noConfusion h
      · rename_i rows2 hrows2
        have hr : row :: rows2 = rows := Except.ok.inj h
        subst hr
        rcases i with _ | i
        · simp at hget
          subst hget
          exact ⟨row, by simp, hrow⟩
        · rcases ih hrows2 i rep (by simpa using hget) with ⟨row2, hrow2, hrowok⟩
          exact ⟨row2, by simpa using hrow2, hrowok⟩

lemma pass2_error_index {env : PuzzleEnv P} {pm : P} {rmap : List (LookupPattern P × Nat)} :
    ∀ {reps : List P} {e : BuildError},
      pass2 env pm rmap reps = .error e →
      ∃ (i : Nat) (rep : P), reps[i]? = some rep ∧
        pass2Row env pm rmap rep env.moves = .error e := by
  intro reps
  induction reps with
  | nil =>
    intro e h
    exact Except.noConfusion h
  | cons r rs ih =>
    intro e h
    simp only [pass2] at h
    split at h
    · rename_i he
      refine ⟨0, r, by simp, ?_⟩
      rw [he, Except.error.inj h]
    · rename_i row hrow
      split at h
      · rename_i he2
        rcases ih (by rw [he2, Except.error.inj h]) with ⟨i, rep, hget, hrowe⟩
        exact ⟨i + 1, rep, by simpa using hget, hrowe⟩
      · exact Except.noConfusion h

/-- The result of pass 1 does not depend on the fuel: two completing runs
from the same state agree. -/
lemma pass1Go_agree {env : PuzzleEnv P} {pm : P} :
    ∀ (f1 : Nat) (st : BuilderState P) (r1 : Except BuildError (BuilderState P)),
      pass1Go env pm f1 st = some r1 →
      ∀ (f2 : Nat) (r2 : Except BuildError (BuilderState P)),
        pass1Go env pm f2 st = some r2 → r1 = r2 := by
  intro f1
  induction f1 with
  | zero =>
    intro st r1 h1 f2 r2 h2
    cases hfr : st.fringe with
    | nil =>
      simp only [pass1Go, hfr] at h1
      have hr1 : r1 = .ok st := (Option.some_inj.mp h1).symm
      cases f2 with
      | zero =>
        simp only [pass1Go, hfr] at h2
        rw [hr1, ← Option.some_inj.mp h2]
      | succ f2 =>
        simp only [pass1Go, hfr] at h2
        rw [hr1, ← Option.some_inj.mp h2]
    | cons hd rest =>
      simp only [pass1Go, hfr] at h1
      exact Option.noConfusion h1
  | succ f1 ih =>
    intro st r1 h1 f2 r2 h2
    cases hfr : st.fringe with
    | nil =>
      simp only [pass1Go, hfr] at h1
      have hr1 : r1 = .ok st := (Option.some_inj.mp h1).symm
      cases f2 with
      | zero =>
        simp only [pass1Go, hfr] at h2
        rw [hr1, ← Option.some_inj.mp h2]
      | succ f2 =>
        simp only [pass1Go, hfr] at h2
        rw [hr1, ← Option.some_inj.mp h2]
    | cons hd rest =>
      obtain ⟨pp, dd⟩ := hd
      cases f2 with
      | zero =>
        simp only [pass1Go, hfr] at h2
        exact Option.noConfusion h2
      | succ f2 =>
        simp only [pass1Go, hfr] at h1 h2
        cases htn : LookupPattern.try_new env pp pm with
        | error e =>
          simp only [htn] at h1 h2
          rw [← Option.some_inj.mp h1, ← Option.some_inj.mp h2]
        | ok o =>
          cases o with
          | none =>
            simp only [htn] at h1 h2
            exact ih _ _ h1 _ _ h2
          | some k =>
            simp only [htn] at h1 h2
            by_cases hdup : (hashMapGet st.lookup_pattern_to_index k).isSome
            · rw [if_pos hdup] at h1 h2
              exact ih _ _ h1 _ _ h2
            · rw [if_neg hdup] at h1 h2
              exact ih _ _ h1 _ _ h2

/-- A state whose fringe is already empty is returned unchanged by pass 1,
whatever the fuel. -/
lemma pass1Go_empty_fringe {env : PuzzleEnv P} {pm : P} (fuel : Nat)
    (st : BuilderState P) (h : st.fringe = []) :
    pass1Go env pm fuel st = some (.ok st) := by
  cases fuel with
  | zero => simp only [pass1Go, h]
  | succ fuel => simp only [pass1Go, h]

/-! ### The claims -/

/-- C1: for every Phase Pattern Index assigned by pass 1 of
`build_phase_lookup_table`, the depth recorded at its first discovery
(`exact_prune_table`) is realised by a reduced-graph path from the default
pattern's key (`Reaches env pm d k`) and no shorter path exists, i.e. it is
the true shortest-path distance in the reduced (phase-key) graph; moreover
the recorded depths — hence, by the first part, the true distances — are
non-decreasing in index order.  The hypothesis `KeyCongruent` is the spec's
premise that masking induces a well-defined reduced graph. -/
theorem bfs_depth_exact_distance {env : PuzzleEnv P} {pm : P} {fuel : Nat}
    {st : BuilderState P}
    (hCong : KeyCongruent env pm)
    (hrun : pass1Go env pm fuel (initState env) = some (.ok st)) :
    (∀ (i d : Nat) (k : LookupPattern P), st.index_to_lookup_pattern[i]? = some k →
      st.exact_prune_table[i]? = some d →
      Reaches env pm d k ∧ ∀ n, Reaches env pm n k → d ≤ n) ∧
    (∀ i j di dj : Nat, i ≤ j → st.exact_prune_table[i]? = some di →
      st.exact_prune_table[j]? = some dj → di ≤ dj) := by
  obtain ⟨hInv, hF⟩ := pass1Go_inv fuel _ st (Inv.init env pm) hrun
  constructor
  · intro i d k hA hD
    exact assigned_depth_exact hCong hInv hF hA hD
  · intro i j di dj hij hdi hdj
    rcases Nat.lt_or_ge i j with hlt | hge
    · have hi := getElem?_some_lt hdi
      have hj := getElem?_some_lt hdj
      have hmono := List.pairwise_iff_getElem.mp hInv.hAmono i j hi hj hlt
      have e1 : some st.exact_prune_table[i] = some di :=
        (List.getElem?_eq_getElem hi).symm.trans hdi
      have e2 : some st.exact_prune_table[j] = some dj :=
        (List.getElem?_eq_getElem hj).symm.trans hdj
      rw [← Option.some_inj.mp e1, ← Option.some_inj.mp e2]
      exact hmono
    · have hij2 : i = j := by omega
      rw [hij2, hdj] at hdi
      rw [Option.some_inj.mp hdi]

theorem bfs_depth_exact_distance_witness :
    (Reaches envT pmT 1 ⟨1, BasicParity.Even⟩ ∧
      ∀ n, Reaches envT pmT n ⟨1, BasicParity.Even⟩ → 1 ≤ n) ∧ (0 : Nat) ≤ 1 := by
  have hCong : KeyCongruent envT pmT := by
    unfold KeyCongruent
    decide
  have hrun : pass1Go envT pmT 10 (initState envT) = some (.ok stT) := rfl
  constructor
  · exact (bfs_depth_exact_distance hCong hrun).1 1 1 ⟨1, BasicParity.Even⟩
      (by decide) (by decide)
  · exact (bfs_depth_exact_distance hCong hrun).2 0 1 0 1 (by decide) (by decide) (by decide)

/-- C2: for every assigned index `i` (given by its recorded representative)
and every flat move index `m`, the transition-table entry built by pass 2
exists, is absent exactly when applying the move to the representative and
re-masking yields no key accepted by the validity predicate
(`keyOf _ _ (mv r) = none`), and when present equals an index whose stored
lookup key is precisely the recomputed key. -/
theorem transition_table_consistent {env : PuzzleEnv P} {pm : P} {fuel : Nat}
    {st : BuilderState P} {rows : List (List (Option Nat))}
    (h1 : pass1Go env pm fuel (initState env) = some (.ok st))
    (h2 : pass2 env pm st.lookup_pattern_to_index
      st.index_to_representative_full_pattern = .ok rows) :
    ∀ (i : Nat) (r : P), st.index_to_representative_full_pattern[i]? = some r →
    ∀ (m : Nat) (mv : P → P), env.moves[m]? = some mv →
    ∃ (row : List (Option Nat)) (entry : Option Nat),
      rows[i]? = some row ∧ row[m]? = some entry ∧
      (entry = none ↔ keyOf env pm (mv r) = none) ∧
      (∀ j : Nat, entry = some j →
        ∃ k : LookupPattern P, keyOf env pm (mv r) = some k ∧
          st.index_to_lookup_pattern[j]? = some k) := by
  obtain ⟨hInv, _⟩ := pass1Go_inv fuel _ st (Inv.init env pm) h1
  intro i r hr m mv hmv
  rcases pass2_getElem h2 i r hr with ⟨row, hrow, hrowok⟩
  rcases pass2Row_getElem hrowok m mv hmv with ⟨entry, hentry, hentok⟩
  refine ⟨row, entry, hrow, hentry, ?_, ?_⟩
  · rcases pass2Entry_ok hentok with ⟨he, hkn⟩ | ⟨k, j, he, hks, hj⟩
    · exact ⟨fun _ => hkn, fun _ => he⟩
    · constructor
      · intro hne
        rw [he] at hne
        exact Option.noConfusion hne
      · intro hkn
        rw [hks] at hkn
        exact Option.noConfusion hkn
  · intro j hj
    rcases pass2Entry_ok hentok with ⟨he, _⟩ | ⟨k, j2, he, hks, hj2⟩
    · rw [he] at hj
      exact Option.noConfusion hj
    · rw [he] at hj
      have hjj : j2 = j := Option.some_inj.mp hj
      subst hjj
      exact ⟨k, hks, hInv.of_hashMapGet hj2⟩

theorem transition_table_consistent_witness :
    ∃ (row : List (Option Nat)) (entry : Option Nat),
      [[some 1], [some 2], [some 0]][0]? = some row ∧ row[0]? = some entry ∧
      (entry = none ↔ keyOf envT pmT 1 = none) ∧
      (∀ j : Nat, entry = some j →
        ∃ k : LookupPattern (Fin 3), keyOf envT pmT 1 = some k ∧
          stT.index_to_lookup_pattern[j]? = some k) :=
  transition_table_consistent
    (show pass1Go envT pmT 10 (initState envT) = some (.ok stT) from rfl)
    (show pass2 envT pmT stT.lookup_pattern_to_index
      stT.index_to_representative_full_pattern = .ok [[some 1], [some 2], [some 0]] from rfl)
    0 0 (by decide) 0 (fun p => p + 1) rfl

/-- C3: if pass 1 ran to completion, pass 2 never takes the
`.inconsistentEnumeration` failure branch: every valid key recomputed from
a stored representative was already discovered during pass 1 and sits in
the reverse map. -/
theorem pass2_no_inconsistent_enumeration {env : PuzzleEnv P} {pm : P} {fuel : Nat}
    {st : BuilderState P}
    (h1 : pass1Go env pm fuel (initState env) = some (.ok st)) :
    pass2 env pm st.lookup_pattern_to_index st.index_to_representative_full_pattern ≠
      .error .inconsistentEnumeration := by
  obtain ⟨hInv, hF⟩ := pass1Go_inv fuel _ st (Inv.init env pm) h1
  intro hcon
  rcases pass2_error_index hcon with ⟨i, rep, hget, hrowe⟩
  rcases pass2Row_error hrowe with ⟨mv, hmv, hente⟩
  rcases pass2Entry_inconsistent hente with ⟨k, hk, hnone⟩
  have hiA : i < st.index_to_lookup_pattern.length := hInv.hlen_r ▸ getElem?_some_lt hget
  rcases exists_getElem?_of_lt
    (show i < st.exact_prune_table.length from hInv.hlen_d ▸ hiA) with ⟨d, hd⟩
  rcases hInv.hEdge i rep d hget hd mv hmv k hk with ⟨j, d', hj, _, _⟩ | ⟨b, hb, _, _⟩
  · rw [hInv.to_hashMapGet hj] at hnone
    exact Option.noConfusion hnone
  · rw [hF] at hb
    exact absurd hb (List.not_mem_nil _)

theorem pass2_no_inconsistent_enumeration_witness :
    pass2 envT pmT stT.lookup_pattern_to_index stT.index_to_representative_full_pattern ≠
      Except.error BuildError.inconsistentEnumeration :=
  pass2_no_inconsistent_enumeration
    (show pass1Go envT pmT 10 (initState envT) = some (.ok stT) from rfl)

/-- C4: two lookup keys are equal exactly when their masked projections and
their parities agree; the parity of a key produced by `try_new` is computed
from the full pattern, so masked-identical patterns with distinct parities
yield distinct keys, and distinct keys present in the reverse map built by
pass 1 carry distinct Phase Pattern Indices. -/
theorem lookup_key_iff_masked_and_parity (env : PuzzleEnv P) (pm : P) :
    (∀ k1 k2 : LookupPattern P,
      k1 = k2 ↔ k1.masked_pattern = k2.masked_pattern ∧ k1.parity = k2.parity) ∧
    (∀ (p : P) (k : LookupPattern P),
      LookupPattern.try_new env p pm = .ok (some k) → k.parity = env.wedge_parity p) ∧
    (∀ (p1 p2 : P) (k1 k2 : LookupPattern P),
      LookupPattern.try_new env p1 pm = .ok (some k1) →
      LookupPattern.try_new env p2 pm = .ok (some k2) →
      env.wedge_parity p1 ≠ env.wedge_parity p2 → k1 ≠ k2) ∧
    (∀ (fuel : Nat) (st : BuilderState P),
      pass1Go env pm fuel (initState env) = some (.ok st) →
      ∀ (k1 k2 : LookupPattern P) (i1 i2 : Nat), k1 ≠ k2 →
        hashMapGet st.lookup_pattern_to_index k1 = some i1 →
        hashMapGet st.lookup_pattern_to_index k2 = some i2 → i1 ≠ i2) := by
  have hpar : ∀ (p : P) (k : LookupPattern P),
      LookupPattern.try_new env p pm = .ok (some k) → k.parity = env.wedge_parity p := by
    intro p k h
    unfold LookupPattern.try_new at h
    split at h
    · exact Except.noConfusion h
    · split at h
      · rw [← Option.some_inj.mp (Except.ok.inj h)]
      · exact Option.noConfusion (Except.ok.inj h)
  refine ⟨?_, hpar, ?_, ?_⟩
  · intro k1 k2
    constructor
    · intro h
      rw [h]
      exact ⟨rfl, rfl⟩
    · intro ⟨h1, h2⟩
      cases k1
      cases k2
      simp only at h1 h2
      rw [h1, h2]
  · intro p1 p2 k1 k2 h1 h2 hne heq
    apply hne
    rw [← hpar p1 k1 h1, ← hpar p2 k2 h2, heq]
  · intro fuel st hrun k1 k2 i1 i2 hne hg1 hg2
    obtain ⟨hInv, _⟩ := pass1Go_inv fuel _ st (Inv.init env pm) hrun
    intro hii
    apply hne
    have e1 := hInv.of_hashMapGet hg1
    have e2 := hInv.of_hashMapGet hg2
    rw [hii, e2] at e1
    exact Option.some_inj.mp e1.symm

theorem lookup_key_iff_masked_and_parity_witness :
    (⟨0, BasicParity.Even⟩ : LookupPattern (Fin 4)) ≠ ⟨0, BasicParity.Odd⟩ ∧
      (0 : Nat) ≠ 1 := by
  constructor
  · exact (lookup_key_iff_masked_and_parity envParity 0).2.2.1 0 2
      ⟨0, BasicParity.Even⟩ ⟨0, BasicParity.Odd⟩ rfl rfl (by decide)
  · exact (lookup_key_iff_masked_and_parity envT pmT).2.2.2 10 stT rfl
      ⟨0, BasicParity.Even⟩ ⟨1, BasicParity.Even⟩ 0 1 (by decide) rfl rfl

/-- C5: for a full pattern whose masking succeeds, `try_new` returns
`some key` exactly when the masked projection passes the validity
predicate and `none` when it does not, while a masking failure is the
fatal `.maskFailed` outcome, never a recoverable `none`. -/
theorem try_new_masking_validity (env : PuzzleEnv P) (pm : P) :
    ∀ p : P,
      (env.mask p pm = none →
        LookupPattern.try_new env p pm = .error .maskFailed) ∧
      (∀ mp : P, env.mask p pm = some mp →
        (env.is_valid mp = true →
          LookupPattern.try_new env p pm = .ok (some ⟨mp, env.wedge_parity p⟩)) ∧
        (env.is_valid mp = false → LookupPattern.try_new env p pm = .ok none)) := by
  intro p
  constructor
  · intro hm
    unfold LookupPattern.try_new
    rw [hm]
  · intro mp hm
    constructor
    · intro hv
      unfold LookupPattern.try_new
      rw [hm]
      simp [hv]
    · intro hv
      unfold LookupPattern.try_new
      rw [hm]
      simp [hv]

theorem try_new_masking_validity_witness :
    LookupPattern.try_new envMaskFail 0 0 = .error .maskFailed ∧
    LookupPattern.try_new envT 0 pmT = .ok (some ⟨0, BasicParity.Even⟩) ∧
    LookupPattern.try_new envInvalidSeed 0 0 = .ok none := by
  refine ⟨?_, ?_, ?_⟩
  · exact (try_new_masking_validity envMaskFail 0 0).1 rfl
  · exact ((try_new_masking_validity envT pmT 0).2 0 rfl).1 rfl
  · exact ((try_new_masking_validity envInvalidSeed 0 0).2 0 rfl).2 rfl

/-- C6: `apply_move` is a pure double lookup — for indices in range it
returns exactly the stored optional next index (the embedding is a function
of the table alone, so nothing is mutated), and an out-of-range phase
pattern index is the arena accessor's fault, modelled as `none`. -/
theorem apply_move_pure_lookup (t : PhaseLookupTable P) :
    (∀ (i m : Nat) (row : List (Option Nat)) (entry : Option Nat),
      t.move_application_table[i]? = some row → row[m]? = some entry →
      t.apply_move i m = some entry) ∧
    (∀ i m : Nat, t.move_application_table.length ≤ i → t.apply_move i m = none) := by
  constructor
  · intro i m row entry hi hm
    unfold PhaseLookupTable.apply_move
    rw [hi]
    show (match row[m]? with
      | none => none
      | some e => some e) = some entry
    rw [hm]
  · intro i m hlen
    unfold PhaseLookupTable.apply_move
    rw [List.getElem?_eq_none hlen]

theorem apply_move_pure_lookup_witness :
    tblT.apply_move 0 0 = some (some 1) ∧ tblT.apply_move 5 0 = none := by
  constructor
  · exact (apply_move_pure_lookup tblT).1 0 0 [some 1] (some 1) (by decide) (by decide)
  · exact (apply_move_pure_lookup tblT).2 5 0 (by decide)

/-- C7: the forward and reverse maps built by pass 1 are mutually inverse
on the assigned range — looking up the key stored at position `i` of
`index_to_lookup_pattern` in `lookup_pattern_to_index` returns exactly
`i`. -/
theorem reverse_lookup_inverse {env : PuzzleEnv P} {pm : P} {fuel : Nat}
    {st : BuilderState P}
    (hrun : pass1Go env pm fuel (initState env) = some (.ok st)) :
    ∀ (i : Nat) (k : LookupPattern P), st.index_to_lookup_pattern[i]? = some k →
      hashMapGet st.lookup_pattern_to_index k = some i := by
  obtain ⟨hInv, _⟩ := pass1Go_inv fuel _ st (Inv.init env pm) hrun
  intro i k hA
  exact hInv.to_hashMapGet hA

theorem reverse_lookup_inverse_witness :
    hashMapGet stT.lookup_pattern_to_index ⟨2, BasicParity.Even⟩ = some 2 :=
  reverse_lookup_inverse
    (show pass1Go envT pmT 10 (initState envT) = some (.ok stT) from rfl)
    2 ⟨2, BasicParity.Even⟩ (by decide)

/-- C8: building the phase lookup table twice from the same puzzle,
generator list and mask gives identical results — the outcome is a
function of the inputs alone (fuel only decides whether the enumeration
ran to completion, never what it produced). -/
theorem build_deterministic {env : PuzzleEnv P} {pm : P} {f1 f2 : Nat}
    {r1 r2 : Except BuildError (PhaseLookupTable P)}
    (h1 : build_phase_lookup_table env pm f1 = some r1)
    (h2 : build_phase_lookup_table env pm f2 = some r2) : r1 = r2 := by
  unfold build_phase_lookup_table at h1 h2
  cases ha : pass1Go env pm f1 (initState env) with
  | none =>
    rw [ha] at h1
    exact Option.noConfusion
      (show (none : Option (Except BuildError (PhaseLookupTable P))) = some r1 from h1)
  | some e1 =>
    cases hb : pass1Go env pm f2 (initState env) with
    | none =>
      rw [hb] at h2
      exact Option.noConfusion
        (show (none : Option (Except BuildError (PhaseLookupTable P))) = some r2 from h2)
    | some e2 =>
      have he : e1 = e2 := pass1Go_agree f1 _ e1 ha f2 e2 hb
      subst he
      rw [ha] at h1
      rw [hb] at h2
      exact Option.some_inj.mp (h1.symm.trans h2)

theorem build_deterministic_witness :
    (Except.ok tblT : Except BuildError (PhaseLookupTable (Fin 3))) = Except.ok tblT :=
  build_deterministic
    (show build_phase_lookup_table envT pmT 10 = some (.ok tblT) from rfl)
    (show build_phase_lookup_table envT pmT 11 = some (.ok tblT) from rfl)

/-- C9: the prune-table contract — a table whose lookup returns 0 for
every pattern (the safe default for unknown patterns) is admissible: its
lookup never exceeds the length of any move sequence that reaches a goal,
which is the never-overestimate requirement `IsAdmissible` spells out. -/
theorem prune_table_zero_admissible (env : PuzzleEnv P) (isGoal : P → Bool) :
    ∀ pt : PruneTable P, (∀ p : P, pt.lookup p = 0) →
      IsAdmissible env isGoal pt := by
  intro pt h
  unfold IsAdmissible
  intro p n _
  rw [h p]
  exact Nat.zero_le n

theorem prune_table_zero_admissible_witness :
    IsAdmissible envT (fun _ => true) { lookup := fun _ => 0 } :=
  prune_table_zero_admissible envT (fun _ => true) { lookup := fun _ => 0 } (fun _ => rfl)

/-- C10: a default pattern whose key the validity predicate rejects makes
`build_phase_lookup_table` return successfully with a completely empty
table: the seed is discarded without expansion, the fringe drains at once,
and pass 2 over zero representatives yields zero rows. -/
theorem invalid_seed_empty_table {env : PuzzleEnv P} {pm : P}
    (h : LookupPattern.try_new env env.default_pattern pm = .ok none) (fuel : Nat) :
    build_phase_lookup_table env pm (fuel + 1) =
      some (.ok { index_to_lookup_pattern := []
                  lookup_pattern_to_index := []
                  move_application_table := [] }) := by
  have hstep : pass1Go env pm (fuel + 1) (initState env) =
      pass1Go env pm fuel { initState env with fringe := [] } := by
    simp only [pass1Go, initState]
    rw [h]
  have hempty : pass1Go env pm fuel { initState env with fringe := [] } =
      some (.ok { initState env with fringe := [] }) :=
    pass1Go_empty_fringe fuel _ rfl
  unfold build_phase_lookup_table
  rw [hstep, hempty]
  rfl

theorem invalid_seed_empty_table_witness :
    build_phase_lookup_table envInvalidSeed (0 : Fin 2) 5 =
      some (.ok { index_to_lookup_pattern := []
                  lookup_pattern_to_index := []
                  move_application_table := [] }) :=
  invalid_seed_empty_table (show LookupPattern.try_new envInvalidSeed
    envInvalidSeed.default_pattern 0 = .ok none from rfl) 4

end TwSearch
